import Mathlib

set_option maxRecDepth 4000

/-!
Verification of the 3-body-problem physics core against its specification.

The JavaScript source is shallowly embedded in Lean 4.  JavaScript numbers
are modelled as exact rationals; Math.sqrt is modelled by ratSqrt, which
agrees with the true square root exactly on perfect rational squares (the
theorems either carry an exactness hypothesis for the square roots involved,
or are evaluated at inputs whose square roots are rational).  Arrays of
bodies are modelled as functions out of Fin n (index is identity, matching
the spec's data model) or as lists where the source works with lists.
-/

/-- 3D vector with rational components, modelling the source class Vector
(js/physics.js and the inline copy in the main build). -/
structure Vec where
  x : ℚ
  y : ℚ
  z : ℚ
deriving DecidableEq, Repr

attribute [ext] Vec

namespace Vec

/-- Source: add(v) returns a new Vector of componentwise sums. -/
def add (a b : Vec) : Vec := ⟨a.x + b.x, a.y + b.y, a.z + b.z⟩

/-- Source: sub(v) returns a new Vector of componentwise differences. -/
def sub (a b : Vec) : Vec := ⟨a.x - b.x, a.y - b.y, a.z - b.z⟩

/-- Source: mult(s) scales every component by the scalar s. -/
def mult (a : Vec) (s : ℚ) : Vec := ⟨a.x * s, a.y * s, a.z * s⟩

/-- The zero vector (new Vector(0, 0, 0) in the source). -/
def zero : Vec := ⟨0, 0, 0⟩

/-- Componentwise negation (used to state Newton's third law cleanly). -/
def neg (a : Vec) : Vec := ⟨-a.x, -a.y, -a.z⟩

/-- Squared Euclidean norm: the radicand of the source mag() method. -/
def normSq (a : Vec) : ℚ := a.x * a.x + a.y * a.y + a.z * a.z

instance : Add Vec := ⟨add⟩
instance : Sub Vec := ⟨sub⟩
instance : Neg Vec := ⟨neg⟩
instance : Zero Vec := ⟨zero⟩

theorem add_def (a b : Vec) : a + b = ⟨a.x + b.x, a.y + b.y, a.z + b.z⟩ := rfl

theorem sub_def (a b : Vec) : a - b = ⟨a.x - b.x, a.y - b.y, a.z - b.z⟩ := rfl

instance : AddCommGroup Vec where
  add_assoc a b c := by
    show add (add a b) c = add a (add b c)
    simp only [add]; ext <;> ring
  zero_add a := by show add zero a = a; simp only [add, zero]; ext <;> ring
  add_zero a := by show add a zero = a; simp only [add, zero]; ext <;> ring
  add_comm a b := by show add a b = add b a; simp only [add]; ext <;> ring
  neg_add_cancel a := by
    show add (neg a) a = zero
    simp only [add, neg, zero]; ext <;> ring
  sub_eq_add_neg a b := by
    show sub a b = add a (neg b)
    simp only [sub, add, neg]; ext <;> ring
  nsmul := nsmulRec
  zsmul := zsmulRec

theorem mult_mult (a : Vec) (s t : ℚ) : (a.mult s).mult t = a.mult (s * t) := by
  simp only [mult]; ext <;> ring

theorem neg_mult (a : Vec) (s : ℚ) : -(a.mult s) = (-a).mult s := by
  show neg (mult a s) = mult (neg a) s
  simp only [mult, neg]; ext <;> ring

theorem mult_zero (a : Vec) : a.mult 0 = 0 := by
  show mult a 0 = zero
  simp only [mult, zero]; ext <;> ring

theorem normSq_nonneg (a : Vec) : 0 ≤ normSq a := by
  have := mul_self_nonneg a.x
  have := mul_self_nonneg a.y
  have := mul_self_nonneg a.z
  simp only [normSq]; linarith

theorem normSq_neg_sub (a b : Vec) : normSq (a - b) = normSq (b - a) := by
  simp only [normSq, sub_def]; ring

theorem normSq_eq_zero_iff (a : Vec) : normSq a = 0 ↔ a = 0 := by
  constructor
  · intro h
    have hx := mul_self_nonneg a.x
    have hy := mul_self_nonneg a.y
    have hz := mul_self_nonneg a.z
    simp only [normSq] at h
    have hx0 : a.x = 0 := by nlinarith
    have hy0 : a.y = 0 := by nlinarith
    have hz0 : a.z = 0 := by nlinarith
    show a = zero
    cases a
    simp only [zero] at *
    simp [hx0, hy0, hz0]
  · intro h
    subst h
    show normSq zero = 0
    simp [normSq, zero]

end Vec

/-- Fuel-driven binary integer square root (digit-by-digit method), used so
that square roots evaluate inside the kernel.  With fuel at least n it
computes the integer square root of n. -/
def bsqrtAux : ℕ → ℕ → ℕ
  | 0, n => n
  | fuel + 1, n =>
    if n < 2 then n
    else
      let s := 2 * bsqrtAux fuel (n / 4)
      if (s + 1) * (s + 1) ≤ n then s + 1 else s

/-- Integer square root, kernel-computable. -/
def bsqrt (n : ℕ) : ℕ := bsqrtAux n n

theorem bsqrtAux_isSqrt (fuel n : ℕ) (h : n ≤ fuel) :
    bsqrtAux fuel n * bsqrtAux fuel n ≤ n ∧
      n < (bsqrtAux fuel n + 1) * (bsqrtAux fuel n + 1) := by
  induction fuel generalizing n with
  | zero =>
    interval_cases n
    simp [bsqrtAux]
  | succ fuel ih =>
    by_cases h2 : n < 2
    · interval_cases n <;> simp [bsqrtAux]
    · have h4 : n / 4 ≤ fuel := by omega
      obtain ⟨ih1, ih2⟩ := ih (n / 4) h4
      have hdiv : 4 * (n / 4) ≤ n := by omega
      have hdiv2 : n < 4 * (n / 4) + 4 := by omega
      simp only [bsqrtAux, if_neg (by omega : ¬ n < 2)]
      set s := bsqrtAux fuel (n / 4) with hs
      by_cases hup : (2 * s + 1) * (2 * s + 1) ≤ n
      · simp only [if_pos hup]
        constructor
        · exact hup
        · nlinarith
      · simp only [if_neg hup]
        constructor
        · nlinarith
        · exact lt_of_not_le hup

theorem bsqrt_isSqrt (n : ℕ) :
    bsqrt n * bsqrt n ≤ n ∧ n < (bsqrt n + 1) * (bsqrt n + 1) :=
  bsqrtAux_isSqrt n n le_rfl

theorem bsqrt_sq (a : ℕ) : bsqrt (a ^ 2) = a := by
  rw [pow_two]
  obtain ⟨h1, h2⟩ := bsqrt_isSqrt (a * a)
  rcases Nat.lt_trichotomy (bsqrt (a * a)) a with h | h | h
  · exfalso; nlinarith
  · exact h
  · exfalso; nlinarith

/-- Model of Math.sqrt as used by the source on rational values: exact on
perfect rational squares (see ratSqrt_of_sq), unspecified junk elsewhere.
Every theorem below either assumes or exhibits exactness of the square
roots it touches. -/
def ratSqrt (q : ℚ) : ℚ := (bsqrt q.num.toNat : ℚ) / (bsqrt q.den : ℚ)

theorem ratSqrt_of_sq (s : ℚ) (hs : 0 ≤ s) : ratSqrt (s ^ 2) = s := by
  have hnum : (s ^ 2).num = s.num ^ 2 := Rat.num_pow s 2
  have hden : (s ^ 2).den = s.den ^ 2 := Rat.den_pow s 2
  have hsn : 0 ≤ s.num := Rat.num_nonneg.mpr hs
  obtain ⟨m, hm⟩ := Int.eq_ofNat_of_zero_le hsn
  have h1 : (s ^ 2).num.toNat = m ^ 2 := by
    rw [hnum, hm]
    rw [show ((m : ℤ) ^ 2) = ((m ^ 2 : ℕ) : ℤ) by push_cast; ring]
    exact Int.toNat_natCast _
  unfold ratSqrt
  rw [h1, hden, bsqrt_sq, bsqrt_sq]
  rw [show ((m : ℚ)) = ((s.num : ℤ) : ℚ) by rw [hm]; norm_cast]
  exact Rat.num_div_den s

/-- Helper: two nonnegative rationals with equal squares are equal. -/
theorem eq_of_sq_eq_sq (a b : ℚ) (ha : 0 ≤ a) (hb : 0 ≤ b)
    (h : a ^ 2 = b ^ 2) : a = b := by
  nlinarith [sq_nonneg (a - b), sq_nonneg (a + b)]

/-- A simulation body: position, velocity and mass, the physics entity of the
data model (rendering hints are not part of the physics entity). -/
structure Body where
  pos : Vec
  vel : Vec
  mass : ℚ
deriving DecidableEq, Repr

example : ratSqrt (25 : ℚ) = 5 :=
  of_decide_eq_true (by with_unfolding_all exact rfl)

example : ratSqrt ((625 : ℚ) / 9) = 25 / 3 :=
  of_decide_eq_true (by with_unfolding_all exact rfl)

/-!
## Fixed-step accumulators

Two accumulator variants occur in the source: the floating-seconds variant
(PhysicsEngine.step in the main build and in verify_consistency.js) and the
integer-microsecond variant (IntegerAccumulatorTest.step in debug_verify.js
and the second PhysicsEngine.step of the main build).  Their while loops are
modelled with an explicit fuel argument that is always large enough for the
loop to run to completion, as the correctness lemmas below establish.
-/

/-- State of the integer-microsecond accumulator: accumulatorUs and
stepsTaken (debug_verify.js IntegerAccumulatorTest; the main build's integer
variant drains accumulatorUs identically, invoking integrate once per
drained step). -/
structure IntAcc where
  accUs : ℕ
  steps : ℕ
deriving DecidableEq, Repr

/-- The integer drain loop of the source: while (accumulatorUs >=
fixedStepUs) { stepsTaken++; accumulatorUs -= fixedStepUs; } with
fixedStepUs = 10000.  First argument is fuel. -/
def drainIntAux : ℕ → IntAcc → IntAcc
  | 0, st => st
  | fuel + 1, st =>
    if 10000 ≤ st.accUs then
      drainIntAux fuel ⟨st.accUs - 10000, st.steps + 1⟩
    else st

/-- The integer drain loop, run with enough fuel (each iteration removes
10000 from the accumulator, so accUs iterations always suffice). -/
def drainInt (st : IntAcc) : IntAcc := drainIntAux st.accUs st

/-- Floor of a rational, computed from the reduced fraction (Int.fdiv is
floor division, and the denominator is positive). -/
def ratFloor (q : ℚ) : ℤ := q.num.fdiv q.den

/-- Math.round(dt * 1000000) of the source, for the non-negative dt values
the accumulator contract covers: JavaScript Math.round(x) is floor(x + 0.5).
-/
def roundUs (dt : ℚ) : ℕ := (ratFloor (dt * 1000000 + 1 / 2)).toNat

/-- IntegerAccumulatorTest.step(dt): round dt to integer microseconds, add
to the accumulator, drain whole fixed steps. -/
def intStep (st : IntAcc) (dt : ℚ) : IntAcc :=
  drainInt ⟨st.accUs + roundUs dt, st.steps⟩

/-- Driving the integer accumulator from its initial state (accumulatorUs =
0, stepsTaken = 0) through a list of visual dt increments. -/
def runInt (dts : List ℚ) : IntAcc := dts.foldl intStep ⟨0, 0⟩

/-- The float drain loop of the source: while (accumulator >= fixedDt) {
integrate(fixedDt); accumulator -= fixedDt; } with fixedDt = 0.01, returning
the leftover residual (the residual dynamics is independent of the bodies).
First argument is fuel. -/
def drainFloatAux : ℕ → ℚ → ℚ
  | 0, acc => acc
  | fuel + 1, acc =>
    if 1 / 100 ≤ acc then drainFloatAux fuel (acc - 1 / 100) else acc

/-- The float drain loop, run with enough fuel (see drainFloatAux_mem). -/
def drainFloat (acc : ℚ) : ℚ := drainFloatAux (acc * 100).num.toNat acc

/-- PhysicsEngine.step (float accumulator variant): accumulator += dt, then
drain whole fixed sub-steps. -/
def floatStep (acc dt : ℚ) : ℚ := drainFloat (acc + dt)

/-- Driving the float accumulator from residual 0 through a list of visual
dt increments; returns the final residual. -/
def runFloat (dts : List ℚ) : ℚ := dts.foldl floatStep 0

theorem drainIntAux_spec (fuel : ℕ) :
    ∀ a s : ℕ, a ≤ fuel →
      drainIntAux fuel ⟨a, s⟩ = ⟨a % 10000, s + a / 10000⟩ := by
  induction fuel with
  | zero =>
    intro a s h
    have h0 : a = 0 := by omega
    subst h0
    simp [drainIntAux]
  | succ fuel ih =>
    intro a s h
    rw [show drainIntAux (fuel + 1) ⟨a, s⟩ =
        if 10000 ≤ a then drainIntAux fuel ⟨a - 10000, s + 1⟩ else ⟨a, s⟩ from rfl]
    by_cases ha : 10000 ≤ a
    · rw [if_pos ha, ih (a - 10000) (s + 1) (by omega)]
      simp only [IntAcc.mk.injEq]
      omega
    · rw [if_neg ha]
      simp only [IntAcc.mk.injEq]
      omega

theorem drainInt_spec (st : IntAcc) :
    drainInt st = ⟨st.accUs % 10000, st.steps + st.accUs / 10000⟩ := by
  cases st with
  | mk a s => exact drainIntAux_spec a a s le_rfl

theorem runInt_from (dts : List ℚ) :
    ∀ acc steps : ℕ, acc < 10000 →
      dts.foldl intStep ⟨acc, steps⟩ =
        ⟨(acc + (dts.map roundUs).sum) % 10000,
          steps + (acc + (dts.map roundUs).sum) / 10000⟩ := by
  induction dts with
  | nil =>
    intro acc steps h
    simp only [List.foldl_nil, List.map_nil, List.sum_nil, IntAcc.mk.injEq]
    omega
  | cons d l ih =>
    intro acc steps h
    simp only [List.foldl_cons, List.map_cons, List.sum_cons]
    rw [show intStep ⟨acc, steps⟩ d = drainInt ⟨acc + roundUs d, steps⟩ from rfl]
    rw [drainInt_spec]
    rw [ih _ _ (by omega)]
    simp only [IntAcc.mk.injEq]
    omega

theorem drainFloatAux_mem (fuel : ℕ) :
    ∀ acc : ℚ, 0 ≤ acc → acc * 100 ≤ (fuel : ℚ) →
      0 ≤ drainFloatAux fuel acc ∧ drainFloatAux fuel acc < 1 / 100 := by
  induction fuel with
  | zero =>
    intro acc h0 hf
    simp only [Nat.cast_zero] at hf
    have : acc = 0 := by linarith
    subst this
    simp only [drainFloatAux]
    norm_num
  | succ fuel ih =>
    intro acc h0 hf
    rw [show drainFloatAux (fuel + 1) acc =
        if 1 / 100 ≤ acc then drainFloatAux fuel (acc - 1 / 100) else acc from rfl]
    by_cases hc : 1 / 100 ≤ acc
    · rw [if_pos hc]
      apply ih
      · linarith
      · push_cast at hf ⊢
        linarith
    · rw [if_neg hc]
      exact ⟨h0, lt_of_not_le hc⟩

/-- A non-negative rational is at most its numerator. -/
theorem rat_le_num (q : ℚ) (h : 0 ≤ q) : q ≤ (q.num : ℚ) := by
  have hden : (1 : ℚ) ≤ (q.den : ℚ) := by
    exact_mod_cast q.pos
  have hnn : (0 : ℚ) ≤ (q.num : ℚ) := by
    exact_mod_cast Rat.num_nonneg.mpr h
  nth_rewrite 1 [← Rat.num_div_den q]
  rw [div_le_iff (by linarith)]
  nlinarith

theorem drainFloat_mem (acc : ℚ) (h0 : 0 ≤ acc) :
    0 ≤ drainFloat acc ∧ drainFloat acc < 1 / 100 := by
  apply drainFloatAux_mem _ _ h0
  have h100 : 0 ≤ acc * 100 := by linarith
  have h1 : acc * 100 ≤ ((acc * 100).num : ℚ) := rat_le_num _ h100
  have h2 : 0 ≤ (acc * 100).num := Rat.num_nonneg.mpr h100
  rw [show (((acc * 100).num.toNat : ℕ) : ℚ) = (((acc * 100).num.toNat : ℤ) : ℚ) by
    norm_cast]
  rw [Int.toNat_of_nonneg h2]
  exact h1

theorem runFloat_from (dts : List ℚ) :
    ∀ acc : ℚ, 0 ≤ acc → acc < 1 / 100 → (∀ x ∈ dts, 0 ≤ x) →
      0 ≤ dts.foldl floatStep acc ∧ dts.foldl floatStep acc < 1 / 100 := by
  induction dts with
  | nil =>
    intro acc h0 h1 _
    exact ⟨h0, h1⟩
  | cons d l ih =>
    intro acc h0 h1 hmem
    simp only [List.foldl_cons]
    have hd : 0 ≤ d := hmem d (by simp)
    have hstep := drainFloat_mem (acc + d) (by linarith)
    exact ih (floatStep acc d) hstep.1 hstep.2 (fun x hx => hmem x (by simp [hx]))

/-- Claim C6: accumulator residual invariant.  Starting from residual 0,
after every accumulator-driven call with non-negative visual time
increments, the leftover residual lies in [0, fixedStep): for the floating
variant, accumulator is in [0, fixedDt) with fixedDt = 0.01 after each
step() returns; for the integer variant, accumulatorUs is in [0,
fixedStepUs) with fixedStepUs = 10000 (the lower bound is inherent in the
natural-number accumulator model; JavaScript side it holds because only
non-negative rounded values are added and subtraction happens only while
accumulatorUs >= fixedStepUs).  Stated for every list of non-negative
increments, which covers every prefix of a drive. -/
theorem c6_residual_invariant (dts : List ℚ) (h : ∀ x ∈ dts, 0 ≤ x) :
    (0 ≤ runFloat dts ∧ runFloat dts < 1 / 100) ∧
      (runInt dts).accUs < 10000 := by
  constructor
  · exact runFloat_from dts 0 le_rfl (by norm_num) h
  · show (List.foldl intStep ⟨0, 0⟩ dts).accUs < 10000
    rw [runInt_from dts 0 0 (by omega)]
    exact Nat.mod_lt _ (by omega)

/-- Witness for C6 at the concrete drive [0.15]: the hypothesis holds and
the residual invariant follows. -/
theorem c6_witness :
    (∀ x ∈ [(3 : ℚ) / 20], 0 ≤ x) ∧
      ((0 ≤ runFloat [(3 : ℚ) / 20] ∧ runFloat [(3 : ℚ) / 20] < 1 / 100) ∧
        (runInt [(3 : ℚ) / 20]).accUs < 10000) :=
  ⟨of_decide_eq_true (by with_unfolding_all exact rfl),
    c6_residual_invariant _ (of_decide_eq_true (by with_unfolding_all exact rfl))⟩

/-- Claim C1 counterexample: two finite sequences of non-negative dt_visual
increments with the same exact value sum (0.0099993 seconds in both cases)
on which the integer-microsecond accumulator executes different numbers of
sub-steps (0 versus 1), because Math.round is applied per call: 9999.3
microseconds round to 9999, while 4999.7 and 4999.6 microseconds round to
5000 each.  This refutes the claim as universally stated. -/
theorem c1_counterexample :
    ([(99993 : ℚ) / 10000000].sum =
        [(49997 : ℚ) / 10000000, 49996 / 10000000].sum) ∧
      (∀ x ∈ [(99993 : ℚ) / 10000000], 0 ≤ x) ∧
      (∀ x ∈ [(49997 : ℚ) / 10000000, 49996 / 10000000], 0 ≤ x) ∧
      (runInt [(99993 : ℚ) / 10000000]).steps = 0 ∧
      (runInt [(49997 : ℚ) / 10000000, 49996 / 10000000]).steps = 1 := by
  refine ⟨?_, ?_, ?_, ?_, ?_⟩
  · simp only [List.sum_cons, List.sum_nil]
    norm_num
  · exact of_decide_eq_true (by with_unfolding_all exact rfl)
  · exact of_decide_eq_true (by with_unfolding_all exact rfl)
  · exact of_decide_eq_true (by with_unfolding_all exact rfl)
  · exact of_decide_eq_true (by with_unfolding_all exact rfl)

/-- Claim C1 (amended): the integer accumulator's step count depends only on
the sum of the rounded integer-microsecond increments, not on how that
total is sliced into calls; the concrete case (30 calls of 0.1 s versus 10
calls of 0.3 s, both exactly 3000000 microseconds) executes exactly 300
sub-steps either way (see the witness). -/
theorem c1_reslicing_amended (l1 l2 : List ℚ)
    (h1 : ∀ x ∈ l1, 0 ≤ x) (h2 : ∀ x ∈ l2, 0 ≤ x)
    (hsum : (l1.map roundUs).sum = (l2.map roundUs).sum) :
    (runInt l1).steps = (runInt l2).steps := by
  show (List.foldl intStep ⟨0, 0⟩ l1).steps = (List.foldl intStep ⟨0, 0⟩ l2).steps
  rw [runInt_from l1 0 0 (by omega), runInt_from l2 0 0 (by omega), hsum]

/-- Witness for C1 (amended) at the concrete case of the claim: 30 calls of
0.1 s and 10 calls of 0.3 s have equal rounded-microsecond sums, execute
equally many sub-steps, and that number is exactly 300. -/
theorem c1_witness :
    (∀ x ∈ List.replicate 30 ((1 : ℚ) / 10), 0 ≤ x) ∧
      (∀ x ∈ List.replicate 10 ((3 : ℚ) / 10), 0 ≤ x) ∧
      ((List.replicate 30 ((1 : ℚ) / 10)).map roundUs).sum =
        ((List.replicate 10 ((3 : ℚ) / 10)).map roundUs).sum ∧
      (runInt (List.replicate 30 ((1 : ℚ) / 10))).steps =
        (runInt (List.replicate 10 ((3 : ℚ) / 10))).steps ∧
      (runInt (List.replicate 30 ((1 : ℚ) / 10))).steps = 300 := by
  have h1 : ∀ x ∈ List.replicate 30 ((1 : ℚ) / 10), 0 ≤ x := by
    intro x hx
    rw [List.eq_of_mem_replicate hx]
    norm_num
  have h2 : ∀ x ∈ List.replicate 10 ((3 : ℚ) / 10), 0 ≤ x := by
    intro x hx
    rw [List.eq_of_mem_replicate hx]
    norm_num
  have hr1 : roundUs ((1 : ℚ) / 10) = 100000 :=
    of_decide_eq_true (by with_unfolding_all exact rfl)
  have hr2 : roundUs ((3 : ℚ) / 10) = 300000 :=
    of_decide_eq_true (by with_unfolding_all exact rfl)
  have hs : ((List.replicate 30 ((1 : ℚ) / 10)).map roundUs).sum =
      ((List.replicate 10 ((3 : ℚ) / 10)).map roundUs).sum := by
    rw [List.map_replicate, List.map_replicate, hr1, hr2,
      List.sum_const_nat, List.sum_const_nat]
  have h300 : (runInt (List.replicate 30 ((1 : ℚ) / 10))).steps = 300 := by
    show (List.foldl intStep ⟨0, 0⟩ _).steps = 300
    rw [runInt_from _ 0 0 (by omega)]
    rw [List.map_replicate, hr1, List.sum_const_nat]
  exact ⟨h1, h2, hs, c1_reslicing_amended _ _ h1 h2 hs, h300⟩

/-!
## The gravitational accelerator

PhysicsEngine.getAccelerations (textually identical in js/physics.js, the
two main-build variants and verify_consistency.js).  The body array is
modelled as a function out of Fin n (index is identity); the acceleration
array starts as fresh zero vectors and is updated in place by the two
compound assignments of the inner loop.
-/

/-- The ordered pair list traversed by the nested loops of
getAccelerations: outer index i ascending, inner index j ascending over
j > i (the full j range filtered to j above i preserves exactly the
source's iteration order). -/
def pairsFin (n : ℕ) : List (Fin n × Fin n) :=
  ((List.finRange n).product (List.finRange n)).filter (fun p => p.1 < p.2)

/-- The force vector of getAccelerations' inner loop: separation rVec =
pos_j − pos_i, rMag = |rVec|, softened squared distance rMag·rMag +
softening², force value G·m_i·m_j/distSq, force vector rVec·(fVal/rMag). -/
def pairForce {n : ℕ} (G eps : ℚ) (st : Fin n → Body)
    (p : Fin n × Fin n) : Vec :=
  let rVec := (st p.2).pos - (st p.1).pos
  let rMag := ratSqrt (Vec.normSq rVec)
  let distSq := rMag * rMag + eps * eps
  let fVal := G * (st p.1).mass * (st p.2).mass / distSq
  rVec.mult (fVal / rMag)

/-- The two compound assignments of getAccelerations' inner loop: acc[i]
gains fVec/m_i and acc[j] (read after the first write, as in the source's
sequential assignments) loses fVec/m_j. -/
def pairUpdate {n : ℕ} (G eps : ℚ) (st : Fin n → Body) (acc : Fin n → Vec)
    (p : Fin n × Fin n) : Fin n → Vec :=
  let fVec := pairForce G eps st p
  let acc1 := Function.update acc p.1 (acc p.1 + fVec.mult (1 / (st p.1).mass))
  Function.update acc1 p.2 (acc1 p.2 - fVec.mult (1 / (st p.2).mass))

/-- PhysicsEngine.getAccelerations: a fresh zero-initialised acceleration
array, one pairwise pass over all unordered pairs i < j.  The input state
is not touched (the function is pure in the embedding, mirroring that the
source only reads state). -/
def getAccelerations {n : ℕ} (G eps : ℚ) (st : Fin n → Body) : Fin n → Vec :=
  (pairsFin n).foldl (pairUpdate G eps st) (fun _ => 0)

/-- What one pairwise pass adds at index k: the i-side gain if k is the
pair's first component, the j-side loss if k is its second. -/
def pairDelta {n : ℕ} (G eps : ℚ) (st : Fin n → Body) (p : Fin n × Fin n)
    (k : Fin n) : Vec :=
  (if k = p.1 then (pairForce G eps st p).mult (1 / (st p.1).mass) else 0) +
    (if k = p.2 then -((pairForce G eps st p).mult (1 / (st p.2).mass)) else 0)

theorem mem_pairsFin {n : ℕ} (p : Fin n × Fin n) :
    p ∈ pairsFin n ↔ p.1 < p.2 := by
  cases p with
  | mk i j =>
    simp [pairsFin, List.mem_filter, List.mem_product, List.mem_finRange]

theorem nodup_pairsFin (n : ℕ) : (pairsFin n).Nodup :=
  ((List.nodup_finRange n).product (List.nodup_finRange n)).filter _

theorem pairUpdate_apply {n : ℕ} (G eps : ℚ) (st : Fin n → Body)
    (acc : Fin n → Vec) (p : Fin n × Fin n) (hp : p.1 ≠ p.2) (k : Fin n) :
    pairUpdate G eps st acc p k = acc k + pairDelta G eps st p k := by
  simp only [pairUpdate, pairDelta]
  by_cases h2 : k = p.2
  · subst h2
    rw [Function.update_same, Function.update_noteq (Ne.symm hp),
      if_neg (Ne.symm hp), if_pos rfl]
    rw [zero_add, sub_eq_add_neg]
  · rw [Function.update_noteq h2, if_neg h2]
    by_cases h1 : k = p.1
    · subst h1
      rw [Function.update_same, if_pos rfl, add_zero]
    · rw [Function.update_noteq h1, if_neg h1, add_zero, add_zero]

theorem foldl_pairUpdate {n : ℕ} (G eps : ℚ) (st : Fin n → Body)
    (ps : List (Fin n × Fin n)) :
    ∀ acc : Fin n → Vec, (∀ p ∈ ps, p.1 ≠ p.2) → ∀ k,
      ps.foldl (pairUpdate G eps st) acc k =
        acc k + (ps.map (fun p => pairDelta G eps st p k)).sum := by
  induction ps with
  | nil =>
    intro acc _ k
    simp
  | cons p ps ih =>
    intro acc hps k
    simp only [List.foldl_cons, List.map_cons, List.sum_cons]
    rw [ih _ (fun q hq => hps q (by simp [hq])) k,
      pairUpdate_apply G eps st acc p (hps p (by simp)) k]
    abel

/-- Claim C4's per-pair softened pull on body k from body j, given the
exact pairwise distance d: force magnitude F = G·m_k·m_j/(d·d + ε·ε)
(softened squared distance), direction (pos_j − pos_k)/d (unsoftened
distance), acceleration contribution F_vec/m_k. -/
def pullSpec {n : ℕ} (G eps : ℚ) (st : Fin n → Body) (d : ℚ)
    (k j : Fin n) : Vec :=
  ((st j).pos - (st k).pos).mult
    (G * (st k).mass * (st j).mass / (d * d + eps * eps) / d / (st k).mass)

/-- Helper: two nonnegative rationals with equal self-products are equal. -/
theorem eq_of_mul_self_eq (a b : ℚ) (ha : 0 ≤ a) (hb : 0 ≤ b)
    (h : a * a = b * b) : a = b := by
  nlinarith [sq_nonneg (a - b), sq_nonneg (a + b)]

theorem pairDelta_eq {n : ℕ} (G eps : ℚ) (st : Fin n → Body)
    (p : Fin n × Fin n) (d : ℚ) (h0 : 0 ≤ d)
    (hsq : d * d = Vec.normSq ((st p.2).pos - (st p.1).pos)) (k : Fin n) :
    pairDelta G eps st p k =
      (if k = p.1 then pullSpec G eps st d p.1 p.2 else 0) +
        (if k = p.2 then pullSpec G eps st d p.2 p.1 else 0) := by
  have hforce : pairForce G eps st p =
      ((st p.2).pos - (st p.1).pos).mult
        (G * (st p.1).mass * (st p.2).mass / (d * d + eps * eps) / d) := by
    simp only [pairForce]
    rw [← hsq, show d * d = d ^ 2 from (pow_two d).symm, ratSqrt_of_sq d h0]
    congr 1
    ring
  have e1 : (pairForce G eps st p).mult (1 / (st p.1).mass) =
      pullSpec G eps st d p.1 p.2 := by
    rw [hforce, Vec.mult_mult]
    simp only [pullSpec]
    congr 1
    ring
  have e2 : -((pairForce G eps st p).mult (1 / (st p.2).mass)) =
      pullSpec G eps st d p.2 p.1 := by
    rw [hforce, Vec.mult_mult, Vec.neg_mult, neg_sub]
    simp only [pullSpec]
    congr 1
    ring
  simp only [pairDelta]
  rw [e1, e2]

/-- Claim C4: for every body array (any length n) whose pairwise separations
admit exact rational distances δ and whose positions are pairwise distinct,
getAccelerations returns the fresh acceleration array whose k-th entry is
the sum over all other bodies j of the claim's softened pull (the net
effect of accumulating +F_vec/m_i into acc[i] and −F_vec/m_j into acc[j]
for every unordered pair): magnitude G·m_k·m_j/(δ·δ + ε·ε) with the
softened squared distance, direction (pos_j − pos_k)/δ with the unsoftened
distance.  The input state is untouched (the embedding is pure), and the
result has one entry per body by construction of its type. -/
theorem c4_getAccelerations_spec {n : ℕ} (G eps : ℚ) (st : Fin n → Body)
    (δ : Fin n → Fin n → ℚ)
    (hδ : ∀ i j : Fin n, 0 ≤ δ i j ∧
      δ i j * δ i j = Vec.normSq ((st j).pos - (st i).pos))
    (hdist : ∀ i j : Fin n, i ≠ j → (st i).pos ≠ (st j).pos) (k : Fin n) :
    getAccelerations G eps st k =
      ∑ j ∈ Finset.univ.erase k, pullSpec G eps st (δ k j) k j := by
  have hsym : ∀ i j : Fin n, δ i j = δ j i := by
    intro i j
    refine eq_of_mul_self_eq _ _ (hδ i j).1 (hδ j i).1 ?_
    rw [(hδ i j).2, (hδ j i).2, Vec.normSq_neg_sub]
  have hne : ∀ p ∈ pairsFin n, p.1 ≠ p.2 := by
    intro p hp
    exact ne_of_lt ((mem_pairsFin p).mp hp)
  show (pairsFin n).foldl (pairUpdate G eps st) (fun _ => 0) k = _
  rw [foldl_pairUpdate G eps st (pairsFin n) (fun _ => 0) hne k]
  have hmap : (pairsFin n).map (fun p => pairDelta G eps st p k) =
      (pairsFin n).map (fun p =>
        (if k = p.1 then pullSpec G eps st (δ p.1 p.2) p.1 p.2 else 0) +
          (if k = p.2 then pullSpec G eps st (δ p.1 p.2) p.2 p.1 else 0)) :=
    List.map_congr_left (fun p _ =>
      pairDelta_eq G eps st p (δ p.1 p.2) (hδ p.1 p.2).1 (hδ p.1 p.2).2 k)
  rw [hmap, ← List.sum_toFinset _ (nodup_pairsFin n)]
  have hto : (pairsFin n).toFinset =
      Finset.univ.filter (fun p : Fin n × Fin n => p.1 < p.2) := by
    ext p
    simp [List.mem_toFinset, mem_pairsFin]
  rw [hto, Finset.sum_filter, Fintype.sum_prod_type, zero_add]
  dsimp only
  have hsplit : ∀ i j : Fin n,
      (if i < j then
        ((if k = i then pullSpec G eps st (δ i j) i j else 0) +
          (if k = j then pullSpec G eps st (δ i j) j i else 0)) else 0) =
      (if k = i then (if i < j then pullSpec G eps st (δ i j) i j else 0)
        else 0) +
        (if k = j then (if i < j then pullSpec G eps st (δ i j) j i else 0)
          else 0) := by
    intro i j
    by_cases h1 : i < j <;> by_cases h2 : k = i <;> by_cases h3 : k = j <;>
      simp [h1, h2, h3]
  calc ∑ i : Fin n, ∑ j : Fin n,
        (if i < j then
          ((if k = i then pullSpec G eps st (δ i j) i j else 0) +
            (if k = j then pullSpec G eps st (δ i j) j i else 0)) else 0)
      = ∑ i : Fin n, ∑ j : Fin n,
          ((if k = i then
              (if i < j then pullSpec G eps st (δ i j) i j else 0) else 0) +
            (if k = j then
              (if i < j then pullSpec G eps st (δ i j) j i else 0) else 0)) :=
        Finset.sum_congr rfl fun i _ => Finset.sum_congr rfl fun j _ =>
          hsplit i j
    _ = (∑ i : Fin n, ∑ j : Fin n,
          (if k = i then
            (if i < j then pullSpec G eps st (δ i j) i j else 0) else 0)) +
        (∑ i : Fin n, ∑ j : Fin n,
          (if k = j then
            (if i < j then pullSpec G eps st (δ i j) j i else 0) else 0)) := by
        simp only [Finset.sum_add_distrib]
    _ = (∑ j : Fin n, if k < j then pullSpec G eps st (δ k j) k j else 0) +
        (∑ i : Fin n, if i < k then pullSpec G eps st (δ i k) k i else 0) := by
        congr 1
        · have h1 : ∀ i : Fin n,
              (∑ j : Fin n, (if k = i then
                (if i < j then pullSpec G eps st (δ i j) i j else 0) else 0)) =
              (if k = i then
                (∑ j : Fin n,
                  if i < j then pullSpec G eps st (δ i j) i j else 0)
                else 0) := by
            intro i
            by_cases h : k = i <;> simp [h]
          rw [Finset.sum_congr rfl fun i _ => h1 i, Finset.sum_ite_eq]
          simp
        · have h2 : ∀ i : Fin n,
              (∑ j : Fin n, (if k = j then
                (if i < j then pullSpec G eps st (δ i j) j i else 0) else 0)) =
              (if i < k then pullSpec G eps st (δ i k) k i else 0) := by
            intro i
            rw [Finset.sum_ite_eq]
            simp
          exact Finset.sum_congr rfl fun i _ => h2 i
    _ = ∑ j : Fin n, (if j ≠ k then pullSpec G eps st (δ k j) k j else 0) := by
        rw [← Finset.sum_add_distrib]
        refine Finset.sum_congr rfl fun j _ => ?_
        rcases lt_trichotomy k j with h | h | h
        · rw [if_pos h, if_neg (lt_asymm h), if_pos (ne_of_gt h), add_zero]
        · subst h
          simp
        · rw [if_neg (lt_asymm h), if_pos h, zero_add, if_pos (ne_of_lt h),
            hsym j k]
    _ = ∑ j ∈ Finset.univ.erase k, pullSpec G eps st (δ k j) k j := by
        rw [← Finset.sum_filter, Finset.filter_ne']

/-- Concrete 3-body state on a 3-4-5 right triangle (rational pairwise
distances), used to witness the accelerator and energy theorems. -/
def cfg4 : Fin 3 → Body
  | 0 => ⟨⟨0, 0, 0⟩, ⟨0, 0, 0⟩, 20⟩
  | 1 => ⟨⟨3, 0, 0⟩, ⟨0, 0, 0⟩, 20⟩
  | 2 => ⟨⟨3, 4, 0⟩, ⟨0, 0, 0⟩, 15⟩

/-- The exact pairwise distances of cfg4. -/
def del4 : Fin 3 → Fin 3 → ℚ
  | 0, 1 => 3
  | 1, 0 => 3
  | 0, 2 => 5
  | 2, 0 => 5
  | 1, 2 => 4
  | 2, 1 => 4
  | _, _ => 0

/-- Witness for C4 at cfg4: the distance and distinctness hypotheses hold
and the characterization follows at body 0. -/
theorem c4_witness :
    (∀ i j : Fin 3, 0 ≤ del4 i j ∧
      del4 i j * del4 i j = Vec.normSq ((cfg4 j).pos - (cfg4 i).pos)) ∧
      (∀ i j : Fin 3, i ≠ j → (cfg4 i).pos ≠ (cfg4 j).pos) ∧
      getAccelerations 1000 5 cfg4 0 =
        ∑ j ∈ Finset.univ.erase 0, pullSpec 1000 5 cfg4 (del4 0 j) 0 j := by
  have h1 : ∀ i j : Fin 3, 0 ≤ del4 i j ∧
      del4 i j * del4 i j = Vec.normSq ((cfg4 j).pos - (cfg4 i).pos) :=
    of_decide_eq_true (by with_unfolding_all exact rfl)
  have h2 : ∀ i j : Fin 3, i ≠ j → (cfg4 i).pos ≠ (cfg4 j).pos :=
    of_decide_eq_true (by with_unfolding_all exact rfl)
  exact ⟨h1, h2, c4_getAccelerations_spec 1000 5 cfg4 del4 h1 h2 0⟩

/-!
## The RK4 stepper

PhysicsEngine.integrate(dt) of the main build (identical to
PhysicsEngine.step(dt) of js/physics.js and to verify_consistency.js).
-/

/-- PhysicsEngine.integrate(dt): the four-stage classical RK4 step of the
source, translated clause by clause.  The initial map is the source's
clone of the bodies (pos.clone(), vel.clone(), mass copied); each stage
state is built from the base state and the previous stage's velocities and
accelerations; the final update applies Δvel and Δpos to the original
bodies and leaves mass untouched. -/
def integrate {n : ℕ} (G eps dt : ℚ) (bodies : Fin n → Body) : Fin n → Body :=
  let state := fun i => Body.mk (bodies i).pos (bodies i).vel (bodies i).mass
  let a1 := getAccelerations G eps state
  let v1 := fun i => (state i).vel
  let s2 := fun i => Body.mk ((state i).pos + (v1 i).mult (dt * (1 / 2)))
    ((state i).vel + (a1 i).mult (dt * (1 / 2))) (state i).mass
  let a2 := getAccelerations G eps s2
  let v2 := fun i => (s2 i).vel
  let s3 := fun i => Body.mk ((state i).pos + (v2 i).mult (dt * (1 / 2)))
    ((state i).vel + (a2 i).mult (dt * (1 / 2))) (state i).mass
  let a3 := getAccelerations G eps s3
  let v3 := fun i => (s3 i).vel
  let s4 := fun i => Body.mk ((state i).pos + (v3 i).mult dt)
    ((state i).vel + (a3 i).mult dt) (state i).mass
  let a4 := getAccelerations G eps s4
  let v4 := fun i => (s4 i).vel
  fun i => Body.mk
    ((bodies i).pos +
      ((v1 i) + (v2 i).mult 2 + (v3 i).mult 2 + (v4 i)).mult (dt / 6))
    ((bodies i).vel +
      ((a1 i) + (a2 i).mult 2 + (a3 i).mult 2 + (a4 i)).mult (dt / 6))
    (bodies i).mass

/-- The claim text's stage-advance: every body of a state moved by
(velocity, acceleration) · h, mass kept. -/
def advanceBy {n : ℕ} (st : Fin n → Body) (vs as : Fin n → Vec) (h : ℚ) :
    Fin n → Body :=
  fun i => Body.mk ((st i).pos + (vs i).mult h) ((st i).vel + (as i).mult h)
    (st i).mass

/-- Claim C5's description of one RK4 step: the accelerator is evaluated at
the base state, at the base state advanced by (v1, a1)·dt/2, by
(v2, a2)·dt/2 and by (v3, a3)·dt, and Δvel = (a1+2a2+2a3+a4)·dt/6,
Δpos = (v1+2v2+2v3+v4)·dt/6 are applied to the original state. -/
def rk4Spec {n : ℕ} (G eps dt : ℚ) (st : Fin n → Body) : Fin n → Body :=
  let a1 := getAccelerations G eps st
  let v1 := fun i => (st i).vel
  let st2 := advanceBy st v1 a1 (dt / 2)
  let a2 := getAccelerations G eps st2
  let v2 := fun i => (st2 i).vel
  let st3 := advanceBy st v2 a2 (dt / 2)
  let a3 := getAccelerations G eps st3
  let v3 := fun i => (st3 i).vel
  let st4 := advanceBy st v3 a3 dt
  let a4 := getAccelerations G eps st4
  let v4 := fun i => (st4 i).vel
  fun i => Body.mk
    ((st i).pos +
      ((v1 i) + (v2 i).mult 2 + (v3 i).mult 2 + (v4 i)).mult (dt / 6))
    ((st i).vel +
      ((a1 i) + (a2 i).mult 2 + (a3 i).mult 2 + (a4 i)).mult (dt / 6))
    (st i).mass

/-- Claim C5: the source's integrate is exactly the claim's four-stage RK4
step applied to the original state, and every body's mass is unchanged by
the step. -/
theorem c5_integrate_is_rk4 {n : ℕ} (G eps dt : ℚ) (bodies : Fin n → Body) :
    integrate G eps dt bodies = rk4Spec G eps dt bodies ∧
      ∀ i, (integrate G eps dt bodies i).mass = (bodies i).mass := by
  constructor
  · have hhalf : dt * (1 / 2) = dt / 2 := by ring
    have hclone :
        (fun i => Body.mk (bodies i).pos (bodies i).vel (bodies i).mass) =
          bodies := by
      funext i
      rfl
    simp only [integrate, rk4Spec, advanceBy, hhalf, hclone]
    rfl
  · intro i
    rfl

/-!
## The energy diagnostic

PhysicsEngine.getTotalEnergy (identical in js/physics.js and both main-build
variants): one pass accumulating kinetic energy per body in the outer loop
and potential energy per pair i < j in the inner loop, returning ke + pe.
-/

/-- PhysicsEngine.getTotalEnergy: ke += 0.5·m·mag(vel)², and for every pair
i < j, pe −= G·m_i·m_j/dist(pos_i, pos_j) with the unsoftened distance;
returns ke + pe.  The pair accumulator mirrors the source's two variables.
-/
def getTotalEnergy {n : ℕ} (G : ℚ) (bodies : Fin n → Body) : ℚ :=
  let z := (List.finRange n).foldl
    (fun (acc : ℚ × ℚ) i =>
      let vmag := ratSqrt (Vec.normSq (bodies i).vel)
      let ke := acc.1 + 1 / 2 * (bodies i).mass * (vmag * vmag)
      let pe := ((List.finRange n).filter (fun j => i < j)).foldl
        (fun pe j =>
          pe - G * (bodies i).mass * (bodies j).mass /
            ratSqrt (Vec.normSq ((bodies i).pos - (bodies j).pos)))
        acc.2
      (ke, pe))
    (0, 0)
  z.1 + z.2

theorem foldl_sub_eq {α : Type} (f : α → ℚ) (l : List α) :
    ∀ init : ℚ, l.foldl (fun a x => a - f x) init = init - (l.map f).sum := by
  induction l with
  | nil =>
    intro init
    simp
  | cons x l ih =>
    intro init
    simp only [List.foldl_cons, List.map_cons, List.sum_cons, ih]
    ring

/-- The kinetic term of body i in the model. -/
def keTerm {n : ℕ} (bodies : Fin n → Body) (i : Fin n) : ℚ :=
  1 / 2 * (bodies i).mass *
    (ratSqrt (Vec.normSq (bodies i).vel) * ratSqrt (Vec.normSq (bodies i).vel))

/-- The (positive) potential term of the pair (i, j) in the model. -/
def peTerm {n : ℕ} (G : ℚ) (bodies : Fin n → Body) (i j : Fin n) : ℚ :=
  G * (bodies i).mass * (bodies j).mass /
    ratSqrt (Vec.normSq ((bodies i).pos - (bodies j).pos))

theorem energy_fold {n : ℕ} (G : ℚ) (bodies : Fin n → Body)
    (l : List (Fin n)) :
    ∀ a b : ℚ,
      l.foldl
        (fun (acc : ℚ × ℚ) i =>
          let vmag := ratSqrt (Vec.normSq (bodies i).vel)
          let ke := acc.1 + 1 / 2 * (bodies i).mass * (vmag * vmag)
          let pe := ((List.finRange n).filter (fun j => i < j)).foldl
            (fun pe j =>
              pe - G * (bodies i).mass * (bodies j).mass /
                ratSqrt (Vec.normSq ((bodies i).pos - (bodies j).pos)))
            acc.2
          (ke, pe))
        (a, b) =
      (a + (l.map (keTerm bodies)).sum,
        b - (l.map (fun i =>
          (((List.finRange n).filter (fun j => i < j)).map
            (peTerm G bodies i)).sum)).sum) := by
  induction l with
  | nil =>
    intro a b
    simp
  | cons i l ih =>
    intro a b
    simp only [List.foldl_cons, List.map_cons, List.sum_cons]
    rw [show (((List.finRange n).filter (fun j => i < j)).foldl
        (fun pe j =>
          pe - G * (bodies i).mass * (bodies j).mass /
            ratSqrt (Vec.normSq ((bodies i).pos - (bodies j).pos)))
        b) = b - (((List.finRange n).filter (fun j => i < j)).map
          (peTerm G bodies i)).sum from foldl_sub_eq _ _ b]
    rw [ih]
    simp only [Prod.mk.injEq, keTerm, peTerm]
    constructor <;> ring

theorem sum_map_filter {α : Type} (p : α → Bool) (f : α → ℚ) (l : List α) :
    ((l.filter p).map f).sum =
      (l.map (fun x => if p x = true then f x else 0)).sum := by
  induction l with
  | nil => simp
  | cons x l ih =>
    by_cases h : p x = true
    · simp [List.filter_cons, h, ih]
    · simp [List.filter_cons, h, ih]

/-- Claim C9: getTotalEnergy returns the sum over all bodies of the kinetic
energy ½·m·|v|² plus the sum over all unordered pairs i < j of the
potential energy −G·m_i·m_j/d(i, j) with the unsoftened pairwise distance;
the state is not modified (the embedding is pure).  The exact velocity
norms ν and pairwise distances δ are supplied as hypotheses. -/
theorem c9_getTotalEnergy_spec {n : ℕ} (G : ℚ) (bodies : Fin n → Body)
    (ν : Fin n → ℚ) (δ : Fin n → Fin n → ℚ)
    (hν : ∀ i, 0 ≤ ν i ∧ ν i * ν i = Vec.normSq (bodies i).vel)
    (hδ : ∀ i j, 0 ≤ δ i j ∧
      δ i j * δ i j = Vec.normSq ((bodies i).pos - (bodies j).pos)) :
    getTotalEnergy G bodies =
      (∑ i : Fin n, 1 / 2 * (bodies i).mass * (ν i * ν i)) +
        (∑ p ∈ Finset.univ.filter (fun p : Fin n × Fin n => p.1 < p.2),
          -(G * (bodies p.1).mass * (bodies p.2).mass / δ p.1 p.2)) := by
  have hkei : ∀ i, keTerm bodies i =
      1 / 2 * (bodies i).mass * (ν i * ν i) := by
    intro i
    simp only [keTerm]
    rw [← (hν i).2, show ν i * ν i = ν i ^ 2 from (pow_two _).symm,
      ratSqrt_of_sq _ (hν i).1]
    ring
  have hpei : ∀ i j, peTerm G bodies i j =
      G * (bodies i).mass * (bodies j).mass / δ i j := by
    intro i j
    simp only [peTerm]
    rw [← (hδ i j).2, show δ i j * δ i j = δ i j ^ 2 from (pow_two _).symm,
      ratSqrt_of_sq _ (hδ i j).1]
  simp only [getTotalEnergy]
  rw [energy_fold G bodies (List.finRange n) 0 0]
  dsimp only
  rw [zero_add, zero_sub]
  have hke : ((List.finRange n).map (keTerm bodies)).sum =
      ∑ i : Fin n, keTerm bodies i := by
    rw [← List.sum_toFinset _ (List.nodup_finRange n), List.toFinset_finRange]
  have hrow : ∀ i : Fin n,
      (((List.finRange n).filter (fun j => i < j)).map
        (peTerm G bodies i)).sum =
      ∑ j : Fin n, if i < j then peTerm G bodies i j else 0 := by
    intro i
    rw [sum_map_filter]
    rw [← List.sum_toFinset _ (List.nodup_finRange n), List.toFinset_finRange]
    refine Finset.sum_congr rfl fun j _ => ?_
    simp [decide_eq_true_eq]
  rw [hke]
  rw [List.map_congr_left (fun i _ => hrow i)]
  have houter : ((List.finRange n).map (fun i =>
      ∑ j : Fin n, if i < j then peTerm G bodies i j else 0)).sum =
      ∑ i : Fin n, ∑ j : Fin n, if i < j then peTerm G bodies i j else 0 := by
    rw [← List.sum_toFinset _ (List.nodup_finRange n), List.toFinset_finRange]
  rw [houter]
  have hpair : (∑ i : Fin n, ∑ j : Fin n,
      if i < j then peTerm G bodies i j else 0) =
      ∑ p ∈ Finset.univ.filter (fun p : Fin n × Fin n => p.1 < p.2),
        peTerm G bodies p.1 p.2 := by
    rw [Finset.sum_filter, Fintype.sum_prod_type]
  rw [hpair]
  have hke2 : (∑ i : Fin n, keTerm bodies i) =
      ∑ i : Fin n, 1 / 2 * (bodies i).mass * (ν i * ν i) :=
    Finset.sum_congr rfl (fun i _ => hkei i)
  have hpe2 : (∑ p ∈ Finset.univ.filter (fun p : Fin n × Fin n => p.1 < p.2),
      peTerm G bodies p.1 p.2) =
      ∑ p ∈ Finset.univ.filter (fun p : Fin n × Fin n => p.1 < p.2),
        G * (bodies p.1).mass * (bodies p.2).mass / δ p.1 p.2 :=
    Finset.sum_congr rfl (fun p _ => hpei p.1 p.2)
  rw [hke2, hpe2, Finset.sum_neg_distrib]

/-- Concrete 3-body state with rational velocity norms and pairwise
distances, used to witness the energy theorem. -/
def cfg9 : Fin 3 → Body
  | 0 => ⟨⟨0, 0, 0⟩, ⟨3, 4, 0⟩, 20⟩
  | 1 => ⟨⟨3, 0, 0⟩, ⟨0, 0, 5⟩, 20⟩
  | 2 => ⟨⟨3, 4, 0⟩, ⟨0, 0, 0⟩, 15⟩

/-- The exact velocity norms of cfg9. -/
def nu9 : Fin 3 → ℚ
  | 0 => 5
  | 1 => 5
  | 2 => 0

/-- Witness for C9 at cfg9: the exactness hypotheses hold and the energy
characterization follows. -/
theorem c9_witness :
    (∀ i : Fin 3, 0 ≤ nu9 i ∧ nu9 i * nu9 i = Vec.normSq (cfg9 i).vel) ∧
      (∀ i j : Fin 3, 0 ≤ del4 i j ∧
        del4 i j * del4 i j = Vec.normSq ((cfg9 i).pos - (cfg9 j).pos)) ∧
      getTotalEnergy 1000 cfg9 =
        (∑ i : Fin 3, 1 / 2 * (cfg9 i).mass * (nu9 i * nu9 i)) +
          (∑ p ∈ Finset.univ.filter (fun p : Fin 3 × Fin 3 => p.1 < p.2),
            -(1000 * (cfg9 p.1).mass * (cfg9 p.2).mass / del4 p.1 p.2)) := by
  have h1 : ∀ i : Fin 3, 0 ≤ nu9 i ∧ nu9 i * nu9 i = Vec.normSq (cfg9 i).vel :=
    of_decide_eq_true (by with_unfolding_all exact rfl)
  have h2 : ∀ i j : Fin 3, 0 ≤ del4 i j ∧
      del4 i j * del4 i j = Vec.normSq ((cfg9 i).pos - (cfg9 j).pos) :=
    of_decide_eq_true (by with_unfolding_all exact rfl)
  exact ⟨h1, h2, c9_getTotalEnergy_spec 1000 cfg9 nu9 del4 h1 h2⟩

/-!
## The stability evaluator

HeatmapExplorer.simStability: an independent simulation over cloned bodies
(never the live SimulationState) with an inline accelerator and integrator:
per step, each body's velocity is kicked by its acceleration times dt
(accelerations read only positions and masses, which the kick loop does not
modify), then every position drifts by the updated velocity times dt, and
the maximal squared distance from the origin of the updated positions is
compared against the escape threshold 6000².  Constants are hardcoded as in
the source: steps = 1000, dt = 0.2, G = 1000, softening² = 25.
-/

/-- One inner-loop acceleration contribution in simStability: softened
squared distance d2 = dx·dx + dy·dy + dz·dz + 25, d = √d2 (the softened
distance, unlike the engine accelerator), f = G·m_b/d2, components
f·(dx/d), f·(dy/d), f·(dz/d). -/
def sweepContrib (bodies : Fin 3 → Body) (a b : Fin 3) : Vec :=
  let dx := (bodies b).pos.x - (bodies a).pos.x
  let dy := (bodies b).pos.y - (bodies a).pos.y
  let dz := (bodies b).pos.z - (bodies a).pos.z
  let d2 := dx * dx + dy * dy + dz * dz + 25
  let d := ratSqrt d2
  let f := 1000 * (bodies b).mass / d2
  ⟨f * (dx / d), f * (dy / d), f * (dz / d)⟩

/-- The softened squared divisor of the sweep's inner loop for a pair. -/
def sweepD2 (bodies : Fin 3 → Body) (a b : Fin 3) : ℚ :=
  ((bodies b).pos.x - (bodies a).pos.x) * ((bodies b).pos.x - (bodies a).pos.x) +
    ((bodies b).pos.y - (bodies a).pos.y) * ((bodies b).pos.y - (bodies a).pos.y) +
    ((bodies b).pos.z - (bodies a).pos.z) * ((bodies b).pos.z - (bodies a).pos.z) +
    25

/-- Body a's acceleration in simStability's inner loop: for b = 0, 1, 2 in
order, skip b = a (continue), otherwise accumulate the contribution. -/
def sweepAccel (bodies : Fin 3 → Body) (a : Fin 3) : Vec :=
  (List.finRange 3).foldl
    (fun acc b => if a = b then acc else acc + sweepContrib bodies a b) 0

/-- The velocity-kick phase of one sweep step: for a = 0, 1, 2 in order,
vel_a += accel(a)·dt.  The loop reads only positions and masses, which it
never writes. -/
def sweepVelPhase (dt : ℚ) (bodies : Fin 3 → Body) : Fin 3 → Body :=
  (List.finRange 3).foldl
    (fun bs a => Function.update bs a
      (Body.mk (bs a).pos ((bs a).vel + (sweepAccel bs a).mult dt) (bs a).mass))
    bodies

/-- The drift phase of one sweep step: pos_a += vel_a·dt for every body. -/
def sweepPosPhase (dt : ℚ) (bodies : Fin 3 → Body) : Fin 3 → Body :=
  fun a => Body.mk ((bodies a).pos + (bodies a).vel.mult dt) (bodies a).vel
    (bodies a).mass

/-- One full coarse-sweep step of simStability's bounded loop. -/
def sweepStep (dt : ℚ) (bodies : Fin 3 → Body) : Fin 3 → Body :=
  sweepPosPhase dt (sweepVelPhase dt bodies)

/-- maxD2 of the drift loop: Math.max folded from 0 over the updated
bodies' squared distances from the origin. -/
def sweepMaxD2 (bodies : Fin 3 → Body) : ℚ :=
  (List.finRange 3).foldl (fun m a => max m (Vec.normSq (bodies a).pos)) 0

/-- The escape check of simStability: maxD2 > esc with esc = 6000·6000. -/
def sweepEscaped (bodies : Fin 3 → Body) : Bool :=
  6000 * 6000 < sweepMaxD2 bodies

/-- The bounded loop of simStability: with some budget remaining, do one
sweep step; if escaped, return i/1000 for the current loop index i,
otherwise continue; when the budget is exhausted, return 1. -/
def simLoop (dt : ℚ) : ℕ → ℕ → (Fin 3 → Body) → ℚ
  | 0, _, _ => 1
  | remaining + 1, i, bodies =>
    let bodies1 := sweepStep dt bodies
    if sweepEscaped bodies1 then (i : ℚ) / 1000 else simLoop dt remaining (i + 1) bodies1

/-- HeatmapExplorer.simStability's simulation core on an already-perturbed
configuration: 1000 coarse steps of size dt = 0.2. -/
def simStability (cfg : Fin 3 → Body) : ℚ := simLoop (1 / 5) 1000 0 cfg

theorem simLoop_char (dt : ℚ) :
    ∀ (r i : ℕ) (cfg : Fin 3 → Body),
      (∃ k < r, sweepEscaped ((sweepStep dt)^[k + 1] cfg) = true ∧
        (∀ j < k, sweepEscaped ((sweepStep dt)^[j + 1] cfg) = false) ∧
        simLoop dt r i cfg = ((i + k : ℕ) : ℚ) / 1000) ∨
      ((∀ k < r, sweepEscaped ((sweepStep dt)^[k + 1] cfg) = false) ∧
        simLoop dt r i cfg = 1) := by
  intro r
  induction r with
  | zero =>
    intro i cfg
    right
    exact ⟨fun k hk => absurd hk (Nat.not_lt_zero k), rfl⟩
  | succ r ih =>
    intro i cfg
    have hunfold : simLoop dt (r + 1) i cfg =
        if sweepEscaped (sweepStep dt cfg) = true then (i : ℚ) / 1000
        else simLoop dt r (i + 1) (sweepStep dt cfg) := rfl
    by_cases hesc : sweepEscaped (sweepStep dt cfg) = true
    · left
      refine ⟨0, Nat.succ_pos r, ?_, ?_, ?_⟩
      · simpa using hesc
      · intro j hj
        exact absurd hj (Nat.not_lt_zero j)
      · rw [hunfold, if_pos hesc]
        norm_num
    · have hesc' : sweepEscaped (sweepStep dt cfg) = false :=
        Bool.eq_false_iff.mpr hesc
      rcases ih (i + 1) (sweepStep dt cfg) with
        ⟨k, hk, he, hmin, heq⟩ | ⟨hall, heq⟩
      · left
        refine ⟨k + 1, by omega, ?_, ?_, ?_⟩
        · rw [show k + 1 + 1 = (k + 1) + 1 from rfl,
            Function.iterate_succ_apply]
          exact he
        · intro j hj
          match j with
          | 0 => simpa using hesc'
          | j' + 1 =>
            rw [Function.iterate_succ_apply]
            exact hmin j' (by omega)
        · rw [hunfold, if_neg hesc, heq]
          congr 1
          push_cast
          ring
      · right
        constructor
        · intro k hk
          match k with
          | 0 => simpa using hesc'
          | k' + 1 =>
            rw [Function.iterate_succ_apply]
            exact hall k' (by omega)
        · rw [hunfold, if_neg hesc]
          exact heq

/-- Claim C3: for every (already-perturbed) configuration, the stability
score is in [0, 1]; moreover either there is a first step index k < 1000
(0-based: the check following the (k+1)-st position update is the first to
fire) at which some body's squared distance from the origin exceeds 6000²,
and the score is exactly k/1000, or no check fires within the budget of
1000 coarse steps and the score is exactly 1. -/
theorem c3_simStability_spec (cfg : Fin 3 → Body) :
    (0 ≤ simStability cfg ∧ simStability cfg ≤ 1) ∧
      ((∃ k < 1000, sweepEscaped ((sweepStep (1 / 5))^[k + 1] cfg) = true ∧
        (∀ j < k, sweepEscaped ((sweepStep (1 / 5))^[j + 1] cfg) = false) ∧
        simStability cfg = (k : ℚ) / 1000) ∨
      ((∀ k < 1000, sweepEscaped ((sweepStep (1 / 5))^[k + 1] cfg) = false) ∧
        simStability cfg = 1)) := by
  rcases simLoop_char (1 / 5) 1000 0 cfg with ⟨k, hk, he, hmin, heq⟩ |
    ⟨hall, heq⟩
  · have heq' : simStability cfg = (k : ℚ) / 1000 := by
      show simLoop (1 / 5) 1000 0 cfg = _
      rw [heq]
      norm_num
    refine ⟨⟨?_, ?_⟩, Or.inl ⟨k, hk, he, hmin, heq'⟩⟩
    · rw [heq']
      positivity
    · rw [heq']
      rw [div_le_one (by norm_num)]
      exact_mod_cast Nat.le_of_lt (by omega : k < 1000)
  · have heq' : simStability cfg = 1 := heq
    exact ⟨by rw [heq']; norm_num, Or.inr ⟨hall, heq'⟩⟩

/-- The repository's INITIAL_CONFIG (positions, velocities, masses). -/
def cfgInit : Fin 3 → Body
  | 0 => ⟨⟨-100, 0, 0⟩, ⟨0, 5, 1 / 2⟩, 20⟩
  | 1 => ⟨⟨100, 0, 0⟩, ⟨0, -5, -1 / 2⟩, 20⟩
  | 2 => ⟨⟨0, -150, 50⟩, ⟨4, 0, 0⟩, 15⟩

/-- Witness for C3: its characterization instantiated at the repository's
initial configuration. -/
theorem c3_witness :
    (0 ≤ simStability cfgInit ∧ simStability cfgInit ≤ 1) ∧
      ((∃ k < 1000, sweepEscaped ((sweepStep (1 / 5))^[k + 1] cfgInit) = true ∧
        (∀ j < k, sweepEscaped ((sweepStep (1 / 5))^[j + 1] cfgInit) = false) ∧
        simStability cfgInit = (k : ℚ) / 1000) ∨
      ((∀ k < 1000, sweepEscaped ((sweepStep (1 / 5))^[k + 1] cfgInit) = false) ∧
        simStability cfgInit = 1)) :=
  c3_simStability_spec cfgInit

/-- Concrete sweep configuration with bodies 0 and 1 exactly coincident at
the origin and body 2 at distance 12 (so every softened divisor is a
rational square root). -/
def cfg7 : Fin 3 → Body
  | 0 => ⟨⟨0, 0, 0⟩, ⟨0, 0, 0⟩, 20⟩
  | 1 => ⟨⟨0, 0, 0⟩, ⟨0, 0, 0⟩, 20⟩
  | 2 => ⟨⟨12, 0, 0⟩, ⟨0, 0, 0⟩, 15⟩

/-- Claim C7 counterexample: with two bodies exactly coincident, the
evaluator's inner-loop acceleration is perfectly finite — the softened
divisor of the coincident pair is √(0 + 25) = 5, the coincident pair
contributes the zero vector, and body 0's total acceleration is the
explicit rational vector (180000/2197, 0, 0) (in the JavaScript original,
non-finite values arise exactly from zero divisors, and no divisor here is
zero).  This refutes the claim that zero separation produces a non-finite
acceleration in the sweep. -/
theorem c7_counterexample :
    (cfg7 0).pos = (cfg7 1).pos ∧
      sweepD2 cfg7 0 1 = 25 ∧
      ratSqrt (sweepD2 cfg7 0 1) = 5 ∧
      sweepContrib cfg7 0 1 = Vec.zero ∧
      sweepAccel cfg7 0 = ⟨180000 / 2197, 0, 0⟩ := by
  refine ⟨rfl, ?_, ?_, ?_, ?_⟩
  · exact of_decide_eq_true (by with_unfolding_all exact rfl)
  · exact of_decide_eq_true (by with_unfolding_all exact rfl)
  · exact of_decide_eq_true (by with_unfolding_all exact rfl)
  · have hx : (sweepAccel cfg7 0).x - 180000 / 2197 = 0 :=
      of_decide_eq_true (by with_unfolding_all exact rfl)
    have hy : (sweepAccel cfg7 0).y = 0 :=
      of_decide_eq_true (by with_unfolding_all exact rfl)
    have hz : (sweepAccel cfg7 0).z = 0 :=
      of_decide_eq_true (by with_unfolding_all exact rfl)
    ext
    · exact sub_eq_zero.mp hx
    · exact hy
    · exact hz

/-- Claim C7 (amended): the evaluator needs no special case for coincident
bodies because its softening enters both the force magnitude and the
direction normalization: every inner-loop divisor d2 is at least 25 (hence
d = √d2 is at least 5), and an exactly coincident pair contributes the
zero vector to the acceleration. -/
theorem c7_softened_divisor_amended (bodies : Fin 3 → Body) (a b : Fin 3) :
    25 ≤ sweepD2 bodies a b ∧
      ((bodies a).pos = (bodies b).pos →
        sweepContrib bodies a b = Vec.zero) := by
  constructor
  · have h := Vec.normSq_nonneg ((bodies b).pos - (bodies a).pos)
    have he : sweepD2 bodies a b =
        Vec.normSq ((bodies b).pos - (bodies a).pos) + 25 := by
      simp only [sweepD2, Vec.normSq, Vec.sub_def]
    rw [he]
    linarith
  · intro h
    simp only [sweepContrib]
    rw [h]
    simp [Vec.zero]

/-- Witness for the amended C7 at the coincident configuration cfg7. -/
theorem c7_amended_witness :
    25 ≤ sweepD2 cfg7 0 1 ∧ sweepContrib cfg7 0 1 = Vec.zero :=
  ⟨(c7_softened_divisor_amended cfg7 0 1).1,
    (c7_softened_divisor_amended cfg7 0 1).2 rfl⟩

/-- The claim-side reading of one coarse-sweep step: a semi-implicit Euler
step built from the sweep's own accelerator — velocities are kicked by the
accelerations at the current positions, positions then drift with the
updated velocities. -/
def eulerSweepSpec (dt : ℚ) (bodies : Fin 3 → Body) : Fin 3 → Body :=
  fun a =>
    let v := (bodies a).vel + (sweepAccel bodies a).mult dt
    Body.mk ((bodies a).pos + v.mult dt) v (bodies a).mass

theorem sweepContrib_congr (bs bodies : Fin 3 → Body)
    (h : ∀ i, (bs i).pos = (bodies i).pos ∧ (bs i).mass = (bodies i).mass)
    (a b : Fin 3) : sweepContrib bs a b = sweepContrib bodies a b := by
  simp only [sweepContrib, (h a).1, (h b).1, (h b).2]

theorem sweepAccel_congr (bs bodies : Fin 3 → Body)
    (h : ∀ i, (bs i).pos = (bodies i).pos ∧ (bs i).mass = (bodies i).mass)
    (a : Fin 3) : sweepAccel bs a = sweepAccel bodies a := by
  simp only [sweepAccel]
  rw [show (List.finRange 3) = [0, 1, 2] from rfl]
  simp only [List.foldl_cons, List.foldl_nil,
    sweepContrib_congr bs bodies h]

theorem sweepVelPhase_eq (dt : ℚ) (bodies : Fin 3 → Body) :
    sweepVelPhase dt bodies = fun a =>
      Body.mk (bodies a).pos
        ((bodies a).vel + (sweepAccel bodies a).mult dt) (bodies a).mass := by
  simp only [sweepVelPhase]
  rw [show (List.finRange 3) = [0, 1, 2] from rfl]
  simp only [List.foldl_cons, List.foldl_nil]
  set B0 := Body.mk (bodies 0).pos
    ((bodies 0).vel + (sweepAccel bodies 0).mult dt) (bodies 0).mass with hB0
  set bs1 := Function.update bodies 0 B0 with hbs1
  have h1 : ∀ i, (bs1 i).pos = (bodies i).pos ∧
      (bs1 i).mass = (bodies i).mass := by
    intro i
    by_cases hi : i = 0
    · subst hi
      rw [hbs1, Function.update_same, hB0]
      exact ⟨rfl, rfl⟩
    · rw [hbs1, Function.update_noteq hi]
      exact ⟨rfl, rfl⟩
  set B1 := Body.mk (bs1 1).pos
    ((bs1 1).vel + (sweepAccel bs1 1).mult dt) (bs1 1).mass with hB1
  set bs2 := Function.update bs1 1 B1 with hbs2
  have h2 : ∀ i, (bs2 i).pos = (bodies i).pos ∧
      (bs2 i).mass = (bodies i).mass := by
    intro i
    by_cases hi : i = 1
    · subst hi
      rw [hbs2, Function.update_same, hB1]
      exact ⟨(h1 1).1, (h1 1).2⟩
    · rw [hbs2, Function.update_noteq hi]
      exact h1 i
  set B2 := Body.mk (bs2 2).pos
    ((bs2 2).vel + (sweepAccel bs2 2).mult dt) (bs2 2).mass with hB2
  have trich : ∀ b : Fin 3, b = 0 ∨ b = 1 ∨ b = 2 := by decide
  funext a
  rcases trich a with ha | ha | ha <;> subst ha
  · rw [Function.update_noteq (by decide), hbs2,
      Function.update_noteq (by decide), hbs1, Function.update_same, hB0]
  · rw [Function.update_noteq (by decide), hbs2, Function.update_same, hB1,
      sweepAccel_congr bs1 bodies h1 1, (show bs1 1 = bodies 1 from
        by rw [hbs1, Function.update_noteq (by decide)])]
  · rw [Function.update_same, hB2, sweepAccel_congr bs2 bodies h2 2,
      (show bs2 2 = bodies 2 from by
        rw [hbs2, Function.update_noteq (by decide), hbs1,
          Function.update_noteq (by decide)])]

/-- Claim C2 (amended): one coarse-sweep step of the stability evaluator is
a semi-implicit Euler step with the evaluator's own inline accelerator
(whose direction normalization uses the softened distance), not a call of
the engine's RK4 integrate — see the counterexample for the disagreement
with RK4 on a shared state. -/
theorem c2_sweep_is_semi_implicit_euler (dt : ℚ) (bodies : Fin 3 → Body) :
    sweepStep dt bodies = eulerSweepSpec dt bodies := by
  rw [sweepStep, sweepVelPhase_eq]
  funext a
  simp only [sweepPosPhase, eulerSweepSpec]

/-- A 3-body state on the x-axis whose pairwise separations are 11/12, 20/3
and 91/12, chosen so that both the engine accelerator's square roots and
the sweep accelerator's softened square roots are exactly rational along
the whole computation. -/
def cfgC2 : Fin 3 → Body
  | 0 => ⟨⟨0, 0, 0⟩, ⟨0, 0, 0⟩, 20⟩
  | 1 => ⟨⟨11 / 12, 0, 0⟩, ⟨0, 0, 0⟩, 20⟩
  | 2 => ⟨⟨91 / 12, 0, 0⟩, ⟨0, 0, 0⟩, 15⟩

/-- Claim C2 counterexample: on the state cfgC2 the coarse-sweep step with
dt = 0.2 and one engine RK4 integrate call with dt = 0.2 (same G = 1000 and
softening 5) produce different states — already body 0's x-velocity
differs. -/
theorem c2_counterexample :
    (sweepStep (1 / 5) cfgC2 0).vel.x ≠
      (integrate 1000 5 (1 / 5) cfgC2 0).vel.x :=
  sub_ne_zero.mp (of_decide_eq_true (by with_unfolding_all exact rfl))

/-- One entry of a JSON-style configuration passed to loadConfig: position,
velocity, mass, and the optional radius / color fields. -/
structure ConfigEntry where
  pos : Vec
  vel : Vec
  mass : ℚ
  radius : Option ℚ
  color : Option ℕ
  deriving DecidableEq, Repr

/-- The body record loadConfig installs: the engine body plus the cosmetic
radius and color fields. -/
structure LoadedBody where
  pos : Vec
  vel : Vec
  mass : ℚ
  radius : ℚ
  color : ℕ
  deriving DecidableEq, Repr

/-- JS `v || d` on an optional numeric field: the default when the field is
absent or falsy (0). -/
def orDefaultQ (o : Option ℚ) (d : ℚ) : ℚ :=
  match o with
  | some r => if r = 0 then d else r
  | none => d

def orDefaultN (o : Option ℕ) (d : ℕ) : ℕ :=
  match o with
  | some r => if r = 0 then d else r
  | none => d

/-- PhysicsEngine.loadConfig: a plain map over the configuration array —
it copies pos, vel and mass verbatim and fills in the radius / color
defaults.  There is no check of any kind and no failure path. -/
def loadConfig (config : List ConfigEntry) : List LoadedBody :=
  config.map (fun c =>
    LoadedBody.mk c.pos c.vel c.mass (orDefaultQ c.radius 5)
      (orDefaultN c.color 0xffffff))

/-- A configuration the spec calls invalid on both counts: a single body
(wrong body count for the 3-body engine) of mass −1 (non-positive). -/
def badConfig : List ConfigEntry :=
  [ConfigEntry.mk Vec.zero Vec.zero (-1) none none]

/-- Claim C8: loadConfig performs no validation.  For every configuration —
including ones with non-positive masses or the wrong body count — it
installs the mapped bodies verbatim, preserving the body count and every
mass; in particular the invalid single-body mass −1 configuration is
installed rather than rejected, and the function's type has no failure
path at all. -/
theorem c8_loadConfig_no_validation :
    (∀ config : List ConfigEntry,
        (loadConfig config).length = config.length ∧
          (loadConfig config).map LoadedBody.mass =
            config.map ConfigEntry.mass) ∧
      (loadConfig badConfig).map LoadedBody.mass = [-1] := by
  refine ⟨fun config => ⟨?_, ?_⟩, rfl⟩
  · simp [loadConfig]
  · simp [loadConfig]

/-- Vector.mag: the (model) Euclidean norm of a vector, exact whenever the
squared norm is a perfect rational square. -/
def mag (v : Vec) : ℚ := ratSqrt (Vec.normSq v)

/-- PhysicsEngine.isUnstable: scans the bodies and returns true on the
first body whose distance from the origin strictly exceeds the threshold
(default argument 5000 at the call sites that omit it), false otherwise. -/
def isUnstable (bodies : List Body) (threshold : ℚ) : Bool :=
  bodies.any (fun b => decide (threshold < mag b.pos))

/-- Claim C10: isUnstable bodies threshold is true iff some body's
unsoftened distance from the origin strictly exceeds threshold; here ρ b
certifies each body's exact distance (ρ b ≥ 0 and ρ b · ρ b = |pos|²),
the hypothesis under which the model square root is exact.  The embedding
is a pure function of the body list, so the bodies are not modified. -/
theorem c10_isUnstable_iff (bodies : List Body) (threshold : ℚ)
    (ρ : Body → ℚ)
    (hρ : ∀ b ∈ bodies, 0 ≤ ρ b ∧ ρ b * ρ b = Vec.normSq b.pos) :
    isUnstable bodies threshold = true ↔
      ∃ b ∈ bodies, threshold < ρ b := by
  have key : ∀ b ∈ bodies, mag b.pos = ρ b := by
    intro b hb
    obtain ⟨h0, hsq⟩ := hρ b hb
    rw [mag, ← hsq, show ρ b * ρ b = ρ b ^ 2 from (pow_two (ρ b)).symm,
      ratSqrt_of_sq (ρ b) h0]
  simp only [isUnstable, List.any_eq_true, decide_eq_true_eq]
  constructor
  · rintro ⟨b, hb, hlt⟩
    rw [key b hb] at hlt
    exact ⟨b, hb, hlt⟩
  · rintro ⟨b, hb, hlt⟩
    rw [← key b hb] at hlt
    exact ⟨b, hb, hlt⟩

/-- A single body at (3000, 4000, 0): distance 5000 from the origin. -/
def bodies10 : List Body :=
  [Body.mk (Vec.mk 3000 4000 0) Vec.zero 1]

/-- Witness for C10 at the grid explorer's threshold 3000: the body at
(3000, 4000, 0) has distance 5000 > 3000, so isUnstable returns true. -/
theorem c10_witness : isUnstable bodies10 3000 = true := by
  have hρ : ∀ b ∈ bodies10,
      0 ≤ (fun _ : Body => (5000 : ℚ)) b ∧
        (fun _ : Body => (5000 : ℚ)) b * (fun _ : Body => (5000 : ℚ)) b =
          Vec.normSq b.pos := by
    intro b hb
    simp only [bodies10, List.mem_singleton] at hb
    subst hb
    refine ⟨by norm_num, ?_⟩
    simp only [Vec.normSq]
    norm_num
  exact (c10_isUnstable_iff bodies10 3000 (fun _ => 5000) hρ).mpr
    ⟨Body.mk (Vec.mk 3000 4000 0) Vec.zero 1, List.mem_cons_self _ _,
      by norm_num⟩
